import Mathlib

/-!
Verification of the cogo coroutine runtime core against its specification.

The definitions below are shallow embeddings of the Rust source:
  * `src/scheduler.rs` — the parked-worker bitmap (`ParkStatus::wake_one`),
    the timer-thread event handler, the work-stealing loop
    (`Scheduler::run_queued_tasks`), the stealer-table construction
    (`Scheduler::new`), `Scheduler::schedule` / `schedule_global`, and the
    globally-locked injector steal (`steal_global`).
  * `src/io/sys/windows/net/tcp_listener_accpet.rs` and `socket_write.rs` —
    the subscribe protocols of the two I/O operations.
  * `src/local.rs` — coroutine-local storage lookup (`LocalKey::with`).
  * `src/std/sync/sync_btree_map.rs` and `sync_map.rs` — the read/dirty
    double map and the poisoned-lock degradation paths.

Machine integers (u64/usize) are modelled as `Nat` with explicit `% 2^64`
where wrapping matters.  Hash maps and btree maps are modelled as
association lists with unique keys.  Concurrency is modelled by making
every interleaving-relevant input (the parked bitmap, the lock flag, the
poisoned flag, the contents of the wakeup cell) an explicit argument.
-/

namespace Cogo

/-! ### u64 primitives used by `ParkStatus::wake_one` -/

/-- Width of the machine words (`u64` / 64-bit `usize`) used by the scheduler. -/
def u64Mod : Nat := 2 ^ 64

/-- Rust `x.wrapping_sub(1)` on `u64`. -/
def wrappingSub1 (x : Nat) : Nat := (x + (u64Mod - 1)) % u64Mod

/-- Rust `!x` (bitwise complement) on `u64`; the argument is first reduced
into the `u64` range. -/
def not64 (x : Nat) : Nat := (u64Mod - 1) - (x % u64Mod)

/-- Rust `x.trailing_zeros()` on `u64`: the index of the least significant
set bit, or 64 when no bit in positions 0..63 is set. -/
def trailingZeros64 (x : Nat) : Nat :=
  ((List.range 64).find? (fun i => x.testBit i)).getD 64

/-! ### `ParkStatus::wake_one` and `Scheduler::schedule` (src/scheduler.rs) -/

/-- The scheduler state visible to `schedule` / `schedule_global` /
`wake_one`: the per-worker local deques, the global injector, the parked
bitmap (`ParkStatus.parked`), the worker count (`ParkStatus.workers`), and
the trace of selector wakeup signals sent so far. -/
structure GState where
  locals : List (List Nat)
  globalQ : List Nat
  parked : Nat
  workers : Nat
  signals : List Nat
  deriving Repr, DecidableEq

/-- `ParkStatus::wake_one` from src/scheduler.rs: load the parked bitmap,
isolate the right-most set bit (`parked & !parked.wrapping_sub(1)`), take
its index via `trailing_zeros`; when that index is below the worker count,
execute `parked.fetch_and(!(workers + first_thread))` and signal
`first_thread`'s selector.  Note the source computes the mask as the
arithmetic sum `self.workers + first_thread`, not as a shifted bit. -/
def wakeOne (st : GState) : GState :=
  let parked := st.parked
  let rms := Nat.land parked (not64 (wrappingSub1 parked))
  let firstThread := trailingZeros64 rms
  if firstThread < st.workers then
    { st with
      parked := Nat.land st.parked (not64 (st.workers + firstThread))
      signals := st.signals ++ [firstThread] }
  else
    st

/-- Sentinel `!1` for an unset `WORKER_ID` (64-bit `usize`). -/
def NOT1 : Nat := u64Mod - 2

/-- `Scheduler::schedule_global`: push onto the global injector, then
`wake_one`. -/
def scheduleGlobal (st : GState) (co : Nat) : GState :=
  wakeOne { st with globalQ := st.globalQ ++ [co] }

/-- `Scheduler::schedule`: read the calling thread's `WORKER_ID`; if it is
the unset sentinel `!1` go through `schedule_global`, otherwise push onto
that worker's own local deque. -/
def schedule (workerId : Nat) (st : GState) (co : Nat) : GState :=
  if workerId = NOT1 then
    scheduleGlobal st co
  else
    { st with locals := st.locals.set workerId ((st.locals.getD workerId []) ++ [co]) }

/-! ### The timer thread's event handler (src/scheduler.rs, init_scheduler) -/

/-- The I/O error kind written into a timed-out coroutine's parameter slot. -/
inductive ErrKind where
  | timedOut
  deriving Repr, DecidableEq

/-- A coroutine as the timer handler sees it: an identifier and the
suspension-parameter slot filled by `set_co_para`. -/
structure Co where
  name : Nat
  para : Option ErrKind
  deriving Repr, DecidableEq

/-- `set_co_para` from src/yield_now.rs as used by the timer handler:
store the error into the coroutine's parameter slot. -/
def setCoPara (c : Co) (e : ErrKind) : Co := { c with para := some e }

/-- What the timer handler ends up doing with a fired entry. -/
inductive TimerOutcome where
  /-- the wakeup cell was empty (another waker already took the coroutine) -/
  | empty
  /-- the coroutine was pushed onto worker `id`'s local queue and `id`'s
  selector was signalled -/
  | pushed (id : Nat) (c : Co)
  /-- the loop over the `sleeps` map found no sleeping registered worker and
  the coroutine left scope without being scheduled anywhere -/
  | dropped (c : Co)
  deriving Repr, DecidableEq

/-- The `for (t, b) in s.sleeps.iter()` loop of the timer event handler:
find the first entry flagged sleeping whose thread also has a registered
worker index; entries flagged sleeping but missing from `worker_ids` are
passed over and the scan continues. -/
def findSleepingWorker (workerIds : List (Nat × Nat)) :
    List (Nat × Bool) → Option Nat
  | [] => none
  | (t, b) :: rest =>
    if b then
      match workerIds.lookup t with
      | some id => some id
      | none => findSleepingWorker workerIds rest
    else
      findSleepingWorker workerIds rest

/-- The timer thread's `timer_event_handler` closure from `init_scheduler`
in src/scheduler.rs: `co.take()`; on success set a `TimedOut` error via
`set_co_para`, then scan the `sleeps` map for a sleeping thread with a
registered worker index and push the coroutine onto that worker's local
queue (signalling its selector).  The source's global fallback
(`s.schedule_global(c)`) is commented out: when the scan finds no target,
the coroutine is dropped. -/
def timerEventHandler (cell : Option Co) (sleeps : List (Nat × Bool))
    (workerIds : List (Nat × Nat)) : TimerOutcome :=
  match cell with
  | none => .empty
  | some c =>
    let c := setCoPara c .timedOut
    match findSleepingWorker workerIds sleeps with
    | some id => .pushed id c
    | none => .dropped c

/-! ### Theorems for C1 and C2 -/

/-- C1: the claim says a successfully taken timed-out coroutine is always
scheduled — onto the owner worker's local queue or, when no owning worker
is tracked, via the scheduler's global-schedule path — and is never dropped.
The code disagrees: with the `sleeps` map still empty (a timer firing
before any worker thread has registered itself), the handler takes the
coroutine, sets the `TimedOut` parameter, finds no sleeping worker, and the
coroutine is dropped without ever being scheduled; the global fallback is
commented out in the source. -/
theorem timer_fire_drops_coroutine_when_no_worker_registered :
    timerEventHandler (some ⟨0, none⟩) [] [] =
      .dropped ⟨0, some .timedOut⟩ := by
  rfl

/-- C2: the claim says `wake_one` clears exactly the right-most set parked
bit.  The code instead executes `fetch_and(!(workers + first_thread))`,
an arithmetic sum used as a mask.  At `workers = 4`, `parked = 1` (worker
0 parked): the right-most set bit has index 0, the mask is `4`, so the
`fetch_and` clears bit 2 and leaves worker 0's parked bit set — the bitmap
is unchanged — while worker 0's selector is nevertheless signalled. -/
theorem wake_one_does_not_clear_parked_bit :
    wakeOne { locals := [[], [], [], []], globalQ := [], parked := 1,
              workers := 4, signals := [] } =
      { locals := [[], [], [], []], globalQ := [], parked := 1,
        workers := 4, signals := [0] } := by
  decide

/-! ### `steal_global`, `Scheduler::new` and `Scheduler::run_queued_tasks`
(src/scheduler.rs)

The crossbeam deques are modelled as lists: the owner pops from the front
of its FIFO deque and pushes to the back; a batch steal
(`steal_batch_and_pop`) moves the victim's pending batch into the thief's
deque and hands the first task back.  The batch extent is internal to
crossbeam; the model moves the victim's whole current queue, which the
claims under verification do not distinguish.  The `Retry`/backoff loop of
the source terminates with `Success` or `Empty`; in this sequential model a
steal simply succeeds exactly when the victim queue is non-empty. -/

/-- `steal_global` from src/scheduler.rs: try to grab the process-wide
`GLOBABLE_LOCK` with a compare-exchange; on contention return `None`
without touching either queue.  Otherwise perform the batch steal from
the injector into the local deque, release the lock, and return the stolen
task if any.  Result: (stolen task, injector after, local after, lock
state after). -/
def stealGlobal (lockHeld : Bool) (globalQ localQ : List Nat) :
    Option Nat × List Nat × List Nat × Bool :=
  if lockHeld then
    (none, globalQ, localQ, true)
  else
    match globalQ with
    | [] => (none, [], localQ, false)
    | c :: rest => (some c, [], localQ ++ rest, false)

/-- The rotation `stealers_l.rotate_left(id)` used by `Scheduler::new`;
Rust's `rotate_left(mid)` requires `mid ≤ len` and moves the first `mid`
elements to the back. -/
def rotateLeftExact (l : List α) (mid : Nat) : List α :=
  l.drop mid ++ l.take mid

/-- The stealer list built for worker `id` by `Scheduler::new`: every other
worker's index in ascending order, then rotated left by `id`. -/
def stealersFor (workers id : Nat) : List Nat :=
  rotateLeftExact ((List.range workers).filter (fun i => i ≠ id)) id

/-- The state one worker's `run_queued_tasks` iteration operates on:
its own local deque, its stealer list paired with the victims' queues,
the global injector, the parked bitmap, `workers_len`, and the
global-steal lock. -/
structure SchedState where
  localQ : List Nat
  peers : List (Nat × List Nat)
  globalQ : List Nat
  parked : Nat
  workersLen : Nat
  lockHeld : Bool
  deriving Repr, DecidableEq

/-- The `stealers.iter().map(...).find_map(|r| r)` chain of
`run_queued_tasks`: walk the stealer list in order; a peer `j` with
`parked_threads & (workers_len + j) != 0` is skipped (mapped to `None`);
otherwise attempt `steal_local` on its deque, which succeeds exactly when
the deque is non-empty.  `find_map` stops at the first success, so later
peers are not attempted.  Result: (stolen task, peers after, local deque
after). -/
def stealLoop (workersLen parked : Nat) (localQ : List Nat) :
    List (Nat × List Nat) → Option Nat × List (Nat × List Nat) × List Nat
  | [] => (none, [], localQ)
  | (j, q) :: rest =>
    if Nat.land parked (workersLen + j) ≠ 0 then
      let (r, rest', l') := stealLoop workersLen parked localQ rest
      (r, (j, q) :: rest', l')
    else
      match q with
      | [] =>
        let (r, rest', l') := stealLoop workersLen parked localQ rest
        (r, (j, []) :: rest', l')
      | c :: qrest => (some c, (j, []) :: rest, localQ ++ qrest)

/-- The task-selection expression of one `run_queued_tasks` iteration:
`local.pop()`, `or_else` the steal chain over the stealer list,
`or_else` (if the injector is non-empty) the lock-guarded `steal_global`. -/
def pickCo (s : SchedState) : Option Nat × SchedState :=
  match s.localQ with
  | c :: rest => (some c, { s with localQ := rest })
  | [] =>
    let (r, peers', l') := stealLoop s.workersLen s.parked [] s.peers
    match r with
    | some c => (some c, { s with peers := peers', localQ := l' })
    | none =>
      if s.globalQ.isEmpty then
        (none, { s with peers := peers', localQ := l' })
      else
        let (g, gq, l'', lk) := stealGlobal s.lockHeld s.globalQ l'
        (g, { s with peers := peers', localQ := l'', globalQ := gq, lockHeld := lk })

/-- What one iteration of the `run_queued_tasks` loop decides. -/
inductive IterResult where
  /-- a task was selected and handed to `run_coroutine` -/
  | ran (co : Nat)
  /-- nothing was found and the re-check saw an empty injector: `break` -/
  | brk
  /-- nothing was found but the injector was non-empty on the re-check:
  loop again -/
  | cont
  deriving Repr, DecidableEq

/-- One iteration of the `run_queued_tasks` loop: select a task via
`pickCo`; on success run it, otherwise re-check the global injector and
break only if it is empty. -/
def runIteration (s : SchedState) : IterResult × SchedState :=
  match pickCo s with
  | (some c, s') => (.ran c, s')
  | (none, s') => if s'.globalQ.isEmpty then (.brk, s') else (.cont, s')

/-! ### Theorems for C3, C6, C7 -/

/-- C3 counterexample: the claim says a worker skips peer `j` exactly when
peer `j`'s parked bit is set.  Take `workers_len = 4`, `parked = 1`
(worker 0's parked bit set, as `wake_one` reads the bitmap) and a single
peer 0 holding one task: the source's test `parked & (workers_len + 0)`
is `1 & 4 = 0`, so peer 0 is *not* skipped and the steal succeeds —
although peer 0's parked bit is set. -/
theorem steal_does_not_skip_parked_peer :
    Nat.testBit 1 0 = true ∧
      (stealLoop 4 1 [] [(0, [42])]).1 = some 42 := by
  decide

/-- C3 amended: a worker makes no steal attempt on peer `j` (leaving `j`'s
queue untouched) exactly when the bitwise AND of the parked bitmap with
the *number* `workers_len + j` is non-zero; when that AND is zero and the
peer heads the stealer list with a non-empty queue, the steal attempt is
made and takes its first task.  (The test reads the bits of
`workers_len + j`, not peer `j`'s own parked bit.) -/
theorem steal_skip_semantics (w p : Nat) (l : List Nat) :
    (∀ peers j q, (j, q) ∈ peers → Nat.land p (w + j) ≠ 0 →
        (j, q) ∈ (stealLoop w p l peers).2.1) ∧
    (∀ j c q rest, Nat.land p (w + j) = 0 →
        (stealLoop w p l ((j, c :: q) :: rest)).1 = some c) := by
  constructor
  · intro peers
    induction peers with
    | nil => intro j q h; exact absurd h (List.not_mem_nil _)
    | cons hd tl ih =>
      intro j q hmem hskip
      obtain ⟨a, qa⟩ := hd
      rcases List.mem_cons.1 hmem with heq | htl
      · cases heq
        simp only [stealLoop, if_pos hskip]
        cases stealLoop w p l tl with
        | mk r rl => exact List.mem_cons_self _ _
      · by_cases ha : Nat.land p (w + a) ≠ 0
        · simp only [stealLoop, if_pos ha]
          cases hsl : stealLoop w p l tl with
          | mk r rl =>
            have := ih j q htl hskip
            rw [hsl] at this
            exact List.mem_cons_of_mem _ this
        · simp only [stealLoop, if_neg ha]
          cases qa with
          | nil =>
            cases hsl : stealLoop w p l tl with
            | mk r rl =>
              have := ih j q htl hskip
              rw [hsl] at this
              exact List.mem_cons_of_mem _ this
          | cons c qrest =>
            exact List.mem_cons_of_mem _ htl
  · intro j c q rest hj
    simp [stealLoop, hj]

/-- C3 amended, witness: at `w = 4`, `p = 4` (bit 2 set), peer 1 is skipped
since `4 & (4+1) = 4 ≠ 0`, and its queue survives; at `w = 4`, `p = 4`,
peer 3 heading the list with `4 & (4+3) = 4 ≠ 0`... use peer 3 only for
the skip part and peer 1 with `p = 2` for the attempt part. -/
theorem steal_skip_semantics_witness :
    (1, [7]) ∈ (stealLoop 4 4 [] [(0, [5]), (1, [7])]).2.1 ∧
      (stealLoop 4 2 [] [(1, [9, 11])]).1 = some 9 := by
  constructor
  · exact (steal_skip_semantics 4 4 []).1 [(0, [5]), (1, [7])] 1 [7]
      (by decide) (by decide)
  · exact (steal_skip_semantics 4 2 []).2 1 9 [11] [] (by decide)

/-- Helper: removing one present element from `range n` by `filter`
leaves `n - 1` elements. -/
theorem length_filter_ne_range (n a : Nat) (h : a < n) :
    ((List.range n).filter (fun i => i ≠ a)).length = n - 1 := by
  induction n with
  | zero => exact absurd h (Nat.not_lt_zero a)
  | succ m ih =>
    rw [List.range_succ, List.filter_append]
    rcases Nat.lt_succ_iff_lt_or_eq.1 h with hlt | heq
    · have hm : (List.filter (fun i => i ≠ a) [m]).length = 1 := by
        simp [List.filter, Nat.ne_of_gt hlt]
      rw [List.length_append, ih hlt, hm]
      omega
    · subst heq
      have h1 : (List.range a).filter (fun i => i ≠ a) = List.range a := by
        apply List.filter_eq_self.2
        intro b hb
        simp [Nat.ne_of_lt (List.mem_range.1 hb)]
      have h2 : (List.filter (fun i => i ≠ a) [a]).length = 0 := by
        simp [List.filter]
      rw [List.length_append, h1, h2, List.length_range]
      omega

/-- Helper: `pickCo` returns no task only when the worker's own deque was
already empty. -/
theorem pickCo_none_localQ_nil (s : SchedState) (h : (pickCo s).1 = none) :
    s.localQ = [] := by
  obtain ⟨lq, ps, gq, pk, wl, lk⟩ := s
  cases lq with
  | nil => rfl
  | cons c rest => simp [pickCo] at h

/-- C6: within one `run_queued_tasks` iteration for worker `id`: the
stealer list contains every other worker exactly once in an order rotated
by `id`; a non-empty local deque is popped first (nothing else touched);
a successful steal short-circuits before the global injector is touched;
and the loop breaks only when the local pop yielded nothing and the global
injector is empty on the re-check. -/
theorem run_queued_tasks_order (workers id : Nat) (hid : id < workers)
    (s : SchedState) :
    (stealersFor workers id).Nodup
  ∧ (∀ j, j ∈ stealersFor workers id ↔ (j < workers ∧ j ≠ id))
  ∧ stealersFor workers id = ((List.range workers).filter (fun i => i ≠ id)).rotate id
  ∧ (∀ c rest, s.localQ = c :: rest →
       pickCo s = (some c, { s with localQ := rest }))
  ∧ (∀ c P L, s.localQ = [] →
       stealLoop s.workersLen s.parked [] s.peers = (some c, P, L) →
       (pickCo s).1 = some c ∧ (pickCo s).2.globalQ = s.globalQ)
  ∧ (∀ r s', runIteration s = (r, s') → r = .brk →
       s.localQ = [] ∧ s'.globalQ = []) := by
  have hrot : stealersFor workers id
      = ((List.range workers).filter (fun i => i ≠ id)).rotate id := by
    have hle : id ≤ ((List.range workers).filter (fun i => i ≠ id)).length := by
      rw [length_filter_ne_range workers id hid]
      omega
    rw [stealersFor, rotateLeftExact, List.rotate_eq_drop_append_take hle]
  refine ⟨?_, ?_, hrot, ?_, ?_, ?_⟩
  · rw [hrot]
    exact List.nodup_rotate.2 ((List.nodup_range workers).filter _)
  · intro j
    rw [hrot, List.mem_rotate, List.mem_filter, List.mem_range]
    simp
  · intro c rest h
    obtain ⟨lq, ps, gq, pk, wl, lk⟩ := s
    simp only at h
    subst h
    rfl
  · intro c P L h hsl
    obtain ⟨lq, ps, gq, pk, wl, lk⟩ := s
    simp only at h hsl
    subst h
    simp [pickCo, hsl]
  · intro r s' hri hbrk
    subst hbrk
    unfold runIteration at hri
    cases hp : pickCo s with
    | mk o s2 =>
      rw [hp] at hri
      cases o with
      | some c => simp at hri
      | none =>
        have hri' : (if s2.globalQ.isEmpty then
              ((IterResult.brk, s2) : IterResult × SchedState)
            else (.cont, s2)) = (.brk, s') := hri
        cases hge : s2.globalQ.isEmpty with
        | false => rw [hge] at hri'; simp at hri'
        | true =>
          rw [hge] at hri'
          simp only [if_true] at hri'
          injection hri' with h1 h2
          subst h2
          exact ⟨pickCo_none_localQ_nil s (by rw [hp]), List.isEmpty_iff.1 hge⟩

/-- C6 witness: with worker 1 of 3 and a concrete state whose local deque
holds task 5, the iteration pops 5 from the local deque and touches
nothing else. -/
theorem run_queued_tasks_order_witness :
    pickCo ⟨[5], [], [7], 0, 3, false⟩
      = (some 5, ⟨[], [], [7], 0, 3, false⟩) :=
  (run_queued_tasks_order 3 1 (by decide)
      ⟨[5], [], [7], 0, 3, false⟩).2.2.2.1 5 [] rfl

/-- C7: `steal_global` under the process-wide `GLOBABLE_LOCK`: when the
lock is already held it returns `None` immediately and modifies neither
the injector nor the local deque; otherwise it performs the batch steal,
releases the lock, and returns the first stolen task if any (the batch
moves to the local deque). -/
theorem steal_global_lock_discipline (g l : List Nat) :
    stealGlobal true g l = (none, g, l, true)
  ∧ (stealGlobal false g l).1 = g.head?
  ∧ (stealGlobal false g l).2.2.2 = false
  ∧ (∀ c rest, g = c :: rest → stealGlobal false g l = (some c, [], l ++ rest, false))
  ∧ (g = [] → stealGlobal false g l = (none, [], l, false)) := by
  refine ⟨rfl, ?_, ?_, ?_, ?_⟩
  · cases g <;> rfl
  · cases g <;> rfl
  · intro c rest h; subst h; rfl
  · intro h; subst h; rfl

/-- C7 witness: with the lock held by another thread and a non-empty
injector, the call returns nothing and leaves both queues untouched. -/
theorem steal_global_lock_discipline_witness :
    stealGlobal true [3, 4] [9] = (none, [3, 4], [9], true) ∧
      stealGlobal false [3, 4] [9] = (some 3, [], [9, 4], false) :=
  ⟨(steal_global_lock_discipline [3, 4] [9]).1,
   (steal_global_lock_discipline [3, 4] [9]).2.2.2.1 3 [4] rfl⟩

/-! ### Theorem for C5 -/

/-- Helper: `wake_one` only touches the parked bitmap and the signal
trace. -/
theorem wakeOne_queues (st : GState) :
    (wakeOne st).globalQ = st.globalQ ∧ (wakeOne st).locals = st.locals := by
  unfold wakeOne
  simp only []
  split <;> exact ⟨rfl, rfl⟩

/-- C5: `Scheduler::schedule` routes by the calling thread's `WORKER_ID`:
a registered worker (id set, i.e. not the `!1` sentinel) pushes onto its
own local deque and touches neither the injector, the bitmap, nor the
signals; an unregistered OS thread goes through `schedule_global`, which
appends to the global injector, leaves every local deque alone, and then
invokes `wake_one`. -/
theorem schedule_routing (st : GState) (co : Nat) (id : Nat)
    (hid : id ≠ NOT1) (hlen : id < st.locals.length) :
    ((schedule id st co).locals.getD id [] = st.locals.getD id [] ++ [co])
  ∧ (∀ j, j ≠ id → (schedule id st co).locals.getD j [] = st.locals.getD j [])
  ∧ (schedule id st co).globalQ = st.globalQ
  ∧ (schedule id st co).parked = st.parked
  ∧ (schedule id st co).signals = st.signals
  ∧ (schedule NOT1 st co).globalQ = st.globalQ ++ [co]
  ∧ (schedule NOT1 st co).locals = st.locals
  ∧ schedule NOT1 st co = wakeOne { st with globalQ := st.globalQ ++ [co] } := by
  have hworker : schedule id st co
      = { st with locals := st.locals.set id ((st.locals.getD id []) ++ [co]) } := by
    unfold schedule
    rw [if_neg hid]
  have hglobal : schedule NOT1 st co
      = wakeOne { st with globalQ := st.globalQ ++ [co] } := by
    unfold schedule scheduleGlobal
    rw [if_pos rfl]
  refine ⟨?_, ?_, ?_, ?_, ?_, ?_, ?_, hglobal⟩
  · rw [hworker]
    simp only [List.getD_eq_getElem?_getD]
    rw [List.getElem?_set_eq_of_lt _ hlen]
    rfl
  · intro j hj
    rw [hworker]
    simp only [List.getD_eq_getElem?_getD]
    rw [List.getElem?_set_ne (fun h => hj h.symm)]
  · rw [hworker]
  · rw [hworker]
  · rw [hworker]
  · rw [hglobal]
    exact (wakeOne_queues _).1
  · rw [hglobal]
    exact (wakeOne_queues _).2

/-- C5 witness: worker 0 of a two-worker scheduler pushes task 9 onto its
own deque, and an unregistered thread pushes task 9 onto the injector. -/
theorem schedule_routing_witness :
    (schedule 0 ⟨[[], []], [], 0, 2, []⟩ 9).locals.getD 0 [] = [9] ∧
      (schedule NOT1 ⟨[[], []], [], 0, 2, []⟩ 9).globalQ = [9] :=
  ⟨(schedule_routing ⟨[[], []], [], 0, 2, []⟩ 9 0 (by decide) (by decide)).1,
   (schedule_routing ⟨[[], []], [], 0, 2, []⟩ 9 0 (by decide)
      (by decide)).2.2.2.2.2.1⟩

/-! ### The subscribe protocols of the Windows I/O operations
(src/io/sys/windows/net/tcp_listener_accpet.rs, socket_write.rs)

Each `subscribe` body is a straight-line sequence of effects; the model
records the sequence of protocol steps it performs, with the coroutine's
cancelled flag as the only branching input. -/

/-- The protocol steps a `subscribe` implementation may perform. -/
inductive SubStep where
  /-- `selector.add_io_timer(&mut io_data, dur)` -/
  | addIoTimer
  /-- `io_data.co = Some(co)` — install the coroutine into the event-data
  record's wakeup cell -/
  | installCo
  /-- the overlapped OS request (`accept_overlapped` /
  `write_overlapped`) -/
  | osRequest
  /-- `cancel.set_io(CancelIoData::new(&io_data))` — publish the cancel
  data into the coroutine's cancel status -/
  | setCancelIo
  /-- `cancel.is_canceled()` — re-read of the cancelled flag -/
  | recheckCancel
  /-- `cancel.cancel()` — perform the cancellation right away -/
  | cancelNow
  deriving Repr, DecidableEq

/-- `TcpListenerAccept::subscribe`: install the coroutine into the
event-data record, issue `accept_overlapped`, register the cancel data,
then re-check the cancelled flag and cancel immediately if it was already
set. -/
def tcpListenerAcceptSubscribe (canceled : Bool) : List SubStep :=
  [.installCo, .osRequest, .setCancelIo, .recheckCancel]
    ++ (if canceled then [.cancelNow] else [])

/-- `SocketWrite::subscribe`: optionally arm the I/O timer, install the
coroutine, and issue `write_overlapped`.  The source registers no cancel
data and never re-reads the cancelled flag. -/
def socketWriteSubscribe (hasTimeout : Bool) (canceled : Bool) : List SubStep :=
  (if hasTimeout then [.addIoTimer] else []) ++ [.installCo, .osRequest]

/-! ### Theorems for C4 -/

/-- C4 counterexample: the claim says every I/O operation's subscribe —
`SocketWrite::subscribe` included — registers the cancel data and
re-checks the cancelled flag.  `SocketWrite::subscribe` with no timeout
and the cancelled flag already set performs neither step. -/
theorem socket_write_subscribe_no_cancel_registration :
    SubStep.setCancelIo ∉ socketWriteSubscribe false true ∧
      SubStep.recheckCancel ∉ socketWriteSubscribe false true := by
  decide

/-- C4 amended: `TcpListenerAccept::subscribe` follows the claimed
protocol — install the coroutine, issue the OS request, register the
cancel data, re-check the cancelled flag, cancelling immediately exactly
when the flag was set — but `SocketWrite::subscribe` installs the
coroutine and issues the OS request without any cancel registration or
re-check, for every timeout/cancel combination. -/
theorem subscribe_cancel_protocol :
    ∀ c t : Bool,
      (tcpListenerAcceptSubscribe c).findIdx (· == .installCo)
          < (tcpListenerAcceptSubscribe c).findIdx (· == .osRequest)
      ∧ (tcpListenerAcceptSubscribe c).findIdx (· == .osRequest)
          < (tcpListenerAcceptSubscribe c).findIdx (· == .setCancelIo)
      ∧ (tcpListenerAcceptSubscribe c).findIdx (· == .setCancelIo)
          < (tcpListenerAcceptSubscribe c).findIdx (· == .recheckCancel)
      ∧ SubStep.setCancelIo ∈ tcpListenerAcceptSubscribe c
      ∧ SubStep.recheckCancel ∈ tcpListenerAcceptSubscribe c
      ∧ (SubStep.cancelNow ∈ tcpListenerAcceptSubscribe c ↔ c = true)
      ∧ SubStep.installCo ∈ socketWriteSubscribe t c
      ∧ SubStep.osRequest ∈ socketWriteSubscribe t c
      ∧ SubStep.setCancelIo ∉ socketWriteSubscribe t c
      ∧ SubStep.recheckCancel ∉ socketWriteSubscribe t c
      ∧ SubStep.cancelNow ∉ socketWriteSubscribe t c := by
  decide

/-- C4 amended, witness: with the cancelled flag set, the accept subscribe
registers the cancel data and cancels immediately. -/
theorem subscribe_cancel_protocol_witness :
    SubStep.setCancelIo ∈ tcpListenerAcceptSubscribe true ∧
      SubStep.cancelNow ∈ tcpListenerAcceptSubscribe true :=
  have h := subscribe_cancel_protocol true false
  ⟨h.2.2.2.1, h.2.2.2.2.2.1.2 rfl⟩

/-! ### Coroutine-local storage (src/local.rs) -/

/-- The maps `LocalKey::with` reads: `Some` when `get_co_local_data`
returns a pointer (the OS thread is currently running a coroutine —
the coroutine's own map), plus the OS thread's `LOCALMAP` fallback.
Keys are `TypeId`s, values type-erased boxes; both are numbered. -/
structure ClsState where
  coMap : Option (List (Nat × Nat))
  threadMap : List (Nat × Nat)
  deriving Repr, DecidableEq

/-- `HashMap::entry(key).or_insert_with(init)`: return the stored value
when the key is present; otherwise run the initializer, store its result,
and report that the initializer ran. -/
def entryOrInsertWith (m : List (Nat × Nat)) (k : Nat) (ini : Unit → Nat) :
    Nat × List (Nat × Nat) × Bool :=
  match m.lookup k with
  | some v => (v, m, false)
  | none => ((ini ()), m ++ [(k, ini ())], true)

/-- `LocalKey::with` via the module-level `with` helper of src/local.rs:
pick the coroutine's own map when `get_co_local_data` is non-null, else
the OS thread's fallback map, then `entry(key).or_insert_with(init)` in
the chosen map.  Returns the value handed to the closure, the state after,
and whether the initializer ran. -/
def localKeyWith (st : ClsState) (k : Nat) (ini : Unit → Nat) :
    Nat × ClsState × Bool :=
  match st.coMap with
  | some m =>
    let r := entryOrInsertWith m k ini
    (r.1, { st with coMap := some r.2.1 }, r.2.2)
  | none =>
    let r := entryOrInsertWith st.threadMap k ini
    (r.1, { st with threadMap := r.2.1 }, r.2.2)

/-- Helper: appending a fresh binding makes it visible to `lookup`. -/
theorem lookup_append_single (m : List (Nat × Nat)) (k v : Nat)
    (h : m.lookup k = none) : (m ++ [(k, v)]).lookup k = some v := by
  induction m with
  | nil => simp [List.lookup]
  | cons hd tl ih =>
    obtain ⟨a, b⟩ := hd
    simp only [List.lookup, List.cons_append] at h ⊢
    cases hka : k == a with
    | true => rw [hka] at h; exact Option.noConfusion h
    | false => rw [hka] at h; exact ih h

/-- Helper (`LocalKey::with`, hit path): when the chosen map already holds
the key, the stored value is returned, the state is unchanged, and the
initializer does not run. -/
theorem localKeyWith_hit (st : ClsState) (k v : Nat) (ini : Unit → Nat)
    (h : (st.coMap.getD st.threadMap).lookup k = some v) :
    localKeyWith st k ini = (v, st, false) := by
  obtain ⟨cm, tm⟩ := st
  cases cm with
  | none =>
    simp only [Option.getD] at h
    simp [localKeyWith, entryOrInsertWith, h]
  | some m =>
    simp only [Option.getD] at h
    simp [localKeyWith, entryOrInsertWith, h]

/-- C8: `LocalKey::with` uses the running coroutine's own map when
`get_co_local_data` returns a pointer (the OS thread's fallback map is
untouched), and the OS thread's fallback map otherwise (no coroutine map
materializes); in the chosen map, a first access of a key runs the
initializer and stores the result, and every later access in that same map
returns the stored value without running any initializer again. -/
theorem local_key_with_spec (st : ClsState) (k : Nat) (ini ini2 : Unit → Nat) :
    (st.coMap ≠ none → (localKeyWith st k ini).2.1.threadMap = st.threadMap)
  ∧ (st.coMap = none → (localKeyWith st k ini).2.1.coMap = none)
  ∧ (∀ v, (st.coMap.getD st.threadMap).lookup k = some v →
        localKeyWith st k ini = (v, st, false))
  ∧ ((st.coMap.getD st.threadMap).lookup k = none →
        (localKeyWith st k ini).1 = ini ()
      ∧ (localKeyWith st k ini).2.2 = true
      ∧ localKeyWith (localKeyWith st k ini).2.1 k ini2
          = (ini (), (localKeyWith st k ini).2.1, false)) := by
  obtain ⟨cm, tm⟩ := st
  refine ⟨?_, ?_, fun v h => localKeyWith_hit _ k v ini h, ?_⟩
  · intro hcm
    cases cm with
    | none => exact absurd rfl hcm
    | some m => rfl
  · intro hcm
    cases cm with
    | none => rfl
    | some m => exact absurd hcm (by simp)
  · intro hmiss
    cases cm with
    | some m =>
      simp only [Option.getD] at hmiss
      refine ⟨?_, ?_, ?_⟩
      · simp [localKeyWith, entryOrInsertWith, hmiss]
      · simp [localKeyWith, entryOrInsertWith, hmiss]
      · apply localKeyWith_hit
        simp only [localKeyWith, entryOrInsertWith, hmiss, Option.getD]
        exact lookup_append_single m k (ini ()) hmiss
    | none =>
      simp only [Option.getD] at hmiss
      refine ⟨?_, ?_, ?_⟩
      · simp [localKeyWith, entryOrInsertWith, hmiss]
      · simp [localKeyWith, entryOrInsertWith, hmiss]
      · apply localKeyWith_hit
        simp only [localKeyWith, entryOrInsertWith, hmiss, Option.getD]
        exact lookup_append_single tm k (ini ()) hmiss

/-- C8 witness: inside a coroutine with an empty local map, the first
access of key 5 runs the initializer (value 7); the second access, with a
different initializer, returns the stored 7 and changes nothing. -/
theorem local_key_with_spec_witness :
    (localKeyWith ⟨some [], []⟩ 5 (fun _ => 7)).1 = 7 ∧
      localKeyWith (localKeyWith ⟨some [], []⟩ 5 (fun _ => 7)).2.1 5
          (fun _ => 99)
        = (7, (localKeyWith ⟨some [], []⟩ 5 (fun _ => 7)).2.1, false) :=
  have h := (local_key_with_spec ⟨some [], []⟩ 5 (fun _ => 7)
      (fun _ => 99)).2.2.2 rfl
  ⟨h.1, h.2.2⟩

/-! ### `SyncBtreeMapImpl` (src/std/sync/sync_btree_map.rs) and `SyncMap`
(src/std/sync/sync_map.rs)

Both `BTreeMap` and `HashMap` are modelled as association lists with
unique keys.  `std::mem::transmute_copy` / `std::mem::forget` manage a
bit-level alias of a value; logically the read map's entry is a copy of
the value that was in the dirty map when the entry was written.  A
poisoned `Mutex`/`RwLock` makes `lock()`/`read()`/`write()` return `Err`;
the flag is part of the model state. -/

/-- Key-value store underlying the map models. -/
abbrev AList := List (Nat × Nat)

/-- `get` on a map with unique keys: the first binding of the key. -/
def alLookup (m : AList) (k : Nat) : Option Nat :=
  match m with
  | [] => none
  | (a, b) :: t => if a = k then some b else alLookup t k

/-- `insert` on a map: replace the first binding of the key (returning the
previous value) or append a fresh binding. -/
def alInsert (m : AList) (k v : Nat) : AList × Option Nat :=
  match m with
  | [] => ([(k, v)], none)
  | (a, b) :: t =>
    if a = k then ((a, v) :: t, some b)
    else
      let r := alInsert t k v
      ((a, b) :: r.1, r.2)

/-- `remove` on a map: drop the first binding of the key, returning its
value. -/
def alRemove (m : AList) (k : Nat) : AList × Option Nat :=
  match m with
  | [] => ([], none)
  | (a, b) :: t =>
    if a = k then (t, some b)
    else
      let r := alRemove t k
      ((a, b) :: r.1, r.2)

/-- The keys of a map, in storage order. -/
def keysOf (m : AList) : List Nat := m.map Prod.fst

/-- `SyncBtreeMapImpl`: the unlocked read `BTreeMap`, the mutex-guarded
dirty `HashMap`, and whether the mutex is poisoned. -/
structure SyncBtree where
  readM : AList
  dirty : AList
  poisoned : Bool
  deriving Repr, DecidableEq

/-- `SyncBtreeMapImpl::new`. -/
def sbNew : SyncBtree := ⟨[], [], false⟩

/-- `SyncBtreeMapImpl::insert`: lock the dirty map (a poisoned lock
returns `Some(v)` with nothing changed); insert into dirty; only when the
key was absent is a copy of the stored value also inserted into the read
map — an overwrite of an existing key updates the dirty map alone. -/
def sbInsert (s : SyncBtree) (k v : Nat) : SyncBtree × Option Nat :=
  if s.poisoned then
    (s, some v)
  else
    let r := alInsert s.dirty k v
    match r.2 with
    | none => ({ s with dirty := r.1, readM := (alInsert s.readM k v).1 }, none)
    | some ov => ({ s with dirty := r.1 }, some ov)

/-- `SyncBtreeMapImpl::remove`: a poisoned lock returns `None`; otherwise
remove from dirty, and when a value was present remove the (forgotten)
alias from the read map too. -/
def sbRemove (s : SyncBtree) (k : Nat) : SyncBtree × Option Nat :=
  if s.poisoned then
    (s, none)
  else
    let r := alRemove s.dirty k
    match r.2 with
    | some v => ({ s with dirty := r.1, readM := (alRemove s.readM k).1 }, some v)
    | none => ({ s with dirty := r.1 }, none)

/-- `SyncBtreeMapImpl::clear`: clear the dirty map and remove (forgetting)
every read-map entry; a poisoned lock does nothing. -/
def sbClear (s : SyncBtree) : SyncBtree :=
  if s.poisoned then s else { s with dirty := [], readM := [] }

/-- `SyncBtreeMapImpl::from`: move the given `HashMap` into dirty, then
iterate it inserting a copy of each entry into the read map. -/
def sbFrom (m : AList) : SyncBtree :=
  { readM := m.foldl (fun r kv => (alInsert r kv.1 kv.2).1) []
    dirty := m
    poisoned := false }

/-- `SyncBtreeMapImpl::get`: unlocked read of the read map only. -/
def sbGet (s : SyncBtree) (k : Nat) : Option Nat := alLookup s.readM k

/-- `SyncBtreeMapImpl::len`: length of the read map only. -/
def sbLen (s : SyncBtree) : Nat := s.readM.length

/-- `SyncBtreeMapImpl::is_empty`: emptiness of the read map only. -/
def sbIsEmpty (s : SyncBtree) : Bool := s.readM.isEmpty

/-- The claimed invariant restricted to keys: both internal maps hold
exactly the same keys (each with a single binding). -/
def SameKeys (s : SyncBtree) : Prop :=
  (keysOf s.readM).Nodup ∧ (keysOf s.dirty).Nodup ∧
    ∀ k, (alLookup s.readM k).isSome = (alLookup s.dirty k).isSome

/-- `SyncMap`: one `RwLock`-guarded `HashMap` plus the poisoned flag. -/
structure SyncMapRS where
  dirty : AList
  poisoned : Bool
  deriving Repr, DecidableEq

/-- `SyncMap::insert`: write-lock and insert; a poisoned lock returns
`Some(v)` without inserting. -/
def smInsert (s : SyncMapRS) (k v : Nat) : SyncMapRS × Option Nat :=
  if s.poisoned then (s, some v)
  else
    let r := alInsert s.dirty k v
    ({ s with dirty := r.1 }, r.2)

/-- `SyncMap::remove`: write-lock and remove; a poisoned lock returns
`None`. -/
def smRemove (s : SyncMapRS) (k : Nat) : SyncMapRS × Option Nat :=
  if s.poisoned then (s, none)
  else
    let r := alRemove s.dirty k
    ({ s with dirty := r.1 }, r.2)

/-- `SyncMap::clear`: write-lock and clear; a poisoned lock does
nothing. -/
def smClear (s : SyncMapRS) : SyncMapRS :=
  if s.poisoned then s else { s with dirty := [] }

/-- `SyncMap::get`: read-lock and look up; a poisoned lock returns
`None`. -/
def smGet (s : SyncMapRS) (k : Nat) : Option Nat :=
  if s.poisoned then none else alLookup s.dirty k

/-- `SyncMap::get_mut`: write-lock and look up (the guard carries the
value); a poisoned lock returns `None`. -/
def smGetMut (s : SyncMapRS) (k : Nat) : Option Nat :=
  if s.poisoned then none else alLookup s.dirty k

/-! ### Association-list lemmas -/

/-- A key is absent exactly when `lookup` misses. -/
theorem alLookup_eq_none_iff (m : AList) (k : Nat) :
    alLookup m k = none ↔ k ∉ keysOf m := by
  induction m with
  | nil => simp [alLookup, keysOf]
  | cons hd tl ih =>
    obtain ⟨a, b⟩ := hd
    by_cases hak : a = k
    · subst hak
      simp [alLookup, keysOf]
    · simp only [alLookup, if_neg hak, keysOf, List.map_cons, List.mem_cons]
      rw [ih]
      constructor
      · intro h hc
        rcases hc with hc | hc
        · exact hak hc.symm
        · exact h hc
      · intro h hc
        exact h (Or.inr hc)

/-- `lookup` hits exactly the present keys. -/
theorem alLookup_isSome_iff (m : AList) (k : Nat) :
    (alLookup m k).isSome = true ↔ k ∈ keysOf m := by
  rw [← Option.ne_none_iff_isSome, not_iff_comm, alLookup_eq_none_iff]

/-- `lookup` after `insert`. -/
theorem alLookup_alInsert (m : AList) (k v k' : Nat) :
    alLookup (alInsert m k v).1 k' = if k = k' then some v else alLookup m k' := by
  induction m with
  | nil => rfl
  | cons hd tl ih =>
    obtain ⟨a, b⟩ := hd
    by_cases hak : a = k
    · subst hak
      simp only [alInsert, if_pos rfl]
      by_cases h : a = k'
      · simp [alLookup, h]
      · simp [alLookup, h]
    · simp only [alInsert, if_neg hak]
      by_cases h1 : a = k'
      · have h2 : ¬k = k' := fun hc => hak (h1.trans hc.symm)
        simp [alLookup, h1, h2]
      · simp [alLookup, h1, ih]

/-- `insert` returns the previous binding. -/
theorem alInsert_snd (m : AList) (k v : Nat) :
    (alInsert m k v).2 = alLookup m k := by
  induction m with
  | nil => rfl
  | cons hd tl ih =>
    obtain ⟨a, b⟩ := hd
    by_cases hak : a = k
    · simp [alInsert, alLookup, hak]
    · simp [alInsert, alLookup, hak, ih]

/-- The keys after `insert`: unchanged on overwrite, the new key appended
on a miss. -/
theorem keysOf_alInsert (m : AList) (k v : Nat) :
    keysOf (alInsert m k v).1
      = if (alLookup m k).isSome then keysOf m else keysOf m ++ [k] := by
  induction m with
  | nil => rfl
  | cons hd tl ih =>
    obtain ⟨a, b⟩ := hd
    by_cases hak : a = k
    · simp [alInsert, alLookup, keysOf, hak]
    · simp only [alInsert, if_neg hak, alLookup, keysOf, List.map_cons]
      rw [show keysOf (alInsert tl k v).1 = List.map Prod.fst (alInsert tl k v).1 from rfl] at ih
      rw [ih]
      by_cases h : (alLookup tl k).isSome
      · simp [h, keysOf]
      · simp [h, keysOf]

/-- `insert` keeps the keys duplicate-free. -/
theorem nodup_alInsert (m : AList) (k v : Nat) (h : (keysOf m).Nodup) :
    (keysOf (alInsert m k v).1).Nodup := by
  rw [keysOf_alInsert]
  by_cases hs : (alLookup m k).isSome
  · simpa [hs] using h
  · have hk : k ∉ keysOf m :=
      (alLookup_eq_none_iff m k).1 (Option.not_isSome_iff_eq_none.1 hs)
    simp [hs, List.nodup_append, h, hk]

/-- `remove` returns the previous binding. -/
theorem alRemove_snd (m : AList) (k : Nat) :
    (alRemove m k).2 = alLookup m k := by
  induction m with
  | nil => rfl
  | cons hd tl ih =>
    obtain ⟨a, b⟩ := hd
    by_cases hak : a = k
    · simp [alRemove, alLookup, hak]
    · simp [alRemove, alLookup, hak, ih]

/-- Removing an absent key is the identity. -/
theorem alRemove_of_none (m : AList) (k : Nat) (h : alLookup m k = none) :
    (alRemove m k).1 = m := by
  induction m with
  | nil => rfl
  | cons hd tl ih =>
    obtain ⟨a, b⟩ := hd
    by_cases hak : a = k
    · rw [show alLookup ((a, b) :: tl) k = some b by simp [alLookup, hak]] at h
      exact Option.noConfusion h
    · rw [show alLookup ((a, b) :: tl) k = alLookup tl k by simp [alLookup, hak]] at h
      simp [alRemove, hak, ih h]

/-- The keys after `remove` are a sublist of the keys before. -/
theorem keysOf_alRemove_sublist (m : AList) (k : Nat) :
    List.Sublist (keysOf (alRemove m k).1) (keysOf m) := by
  induction m with
  | nil => exact List.Sublist.refl _
  | cons hd tl ih =>
    obtain ⟨a, b⟩ := hd
    by_cases hak : a = k
    · simp only [alRemove, if_pos hak, keysOf, List.map_cons]
      exact List.Sublist.cons a (List.Sublist.refl _)
    · simp only [alRemove, if_neg hak, keysOf, List.map_cons]
      exact List.Sublist.cons₂ a ih

/-- `lookup` after `remove`, on a duplicate-free map. -/
theorem alLookup_alRemove (m : AList) (k k' : Nat) (h : (keysOf m).Nodup) :
    alLookup (alRemove m k).1 k' = if k = k' then none else alLookup m k' := by
  induction m with
  | nil => simp [alRemove, alLookup]
  | cons hd tl ih =>
    obtain ⟨a, b⟩ := hd
    have hnd : (keysOf tl).Nodup := (List.nodup_cons.1 h).2
    have hna : a ∉ keysOf tl := (List.nodup_cons.1 h).1
    by_cases hak : a = k
    · subst hak
      simp only [alRemove, if_pos rfl]
      by_cases h2 : a = k'
      · subst h2
        simp [(alLookup_eq_none_iff tl a).2 hna]
      · simp [alLookup, h2]
    · simp only [alRemove, if_neg hak]
      by_cases h1 : a = k'
      · have h2 : ¬k = k' := fun hc => hak (h1.trans hc.symm)
        simp [alLookup, h1, h2]
      · simp [alLookup, h1, ih hnd]

/-- `lookup` over the read map built by `SyncBtreeMapImpl::from`'s
insertion loop, on input with duplicate-free keys. -/
theorem foldl_alInsert_lookup (m : AList) (r0 : AList) (k : Nat)
    (h : (keysOf m).Nodup) :
    alLookup (m.foldl (fun r kv => (alInsert r kv.1 kv.2).1) r0) k
      = (alLookup m k).or (alLookup r0 k) := by
  induction m generalizing r0 with
  | nil => rfl
  | cons hd tl ih =>
    obtain ⟨a, b⟩ := hd
    have hna : a ∉ keysOf tl := (List.nodup_cons.1 h).1
    have hnd := (List.nodup_cons.1 h).2
    simp only [List.foldl_cons]
    rw [ih _ hnd, alLookup_alInsert]
    by_cases hak : a = k
    · subst hak
      rw [(alLookup_eq_none_iff tl a).2 hna]
      simp [alLookup]
    · simp [alLookup, hak]

/-- The insertion loop of `SyncBtreeMapImpl::from` keeps keys
duplicate-free. -/
theorem foldl_alInsert_nodup (m : AList) (r0 : AList)
    (h0 : (keysOf r0).Nodup) :
    (keysOf (m.foldl (fun r kv => (alInsert r kv.1 kv.2).1) r0)).Nodup := by
  induction m generalizing r0 with
  | nil => exact h0
  | cons hd tl ih => exact ih _ (nodup_alInsert _ _ _ h0)

/-- Under `SameKeys`, membership in the two maps coincides. -/
theorem sameKeys_mem (s : SyncBtree) (hs : SameKeys s) (a : Nat) :
    a ∈ keysOf s.readM ↔ a ∈ keysOf s.dirty := by
  rw [← alLookup_isSome_iff, ← alLookup_isSome_iff, hs.2.2 a]

/-- Under `SameKeys`, the two maps have the same size. -/
theorem sameKeys_length (s : SyncBtree) (hs : SameKeys s) :
    s.readM.length = s.dirty.length := by
  have hperm : (keysOf s.readM).Perm (keysOf s.dirty) :=
    (List.perm_ext_iff_of_nodup hs.1 hs.2.1).2 (sameKeys_mem s hs)
  simpa [keysOf] using hperm.length_eq

/-- Under `SameKeys`, the two maps are empty together. -/
theorem sameKeys_isEmpty (s : SyncBtree) (hs : SameKeys s) :
    s.readM.isEmpty = s.dirty.isEmpty := by
  have h := sameKeys_length s hs
  rcases hr : s.readM with _ | ⟨x, xs⟩ <;> rcases hd : s.dirty with _ | ⟨y, ys⟩ <;>
    rw [hr, hd] at h <;> simp_all [List.isEmpty]

/-- `insert` preserves the same-keys invariant (on an overwrite only the
dirty map's value changes; the key sets stay equal). -/
theorem sameKeys_sbInsert (s : SyncBtree) (k v : Nat) (hs : SameKeys s) :
    SameKeys (sbInsert s k v).1 := by
  by_cases hp : s.poisoned
  · simpa [sbInsert, hp] using hs
  · cases hv : alLookup s.dirty k with
    | none =>
      have hr2 : (alInsert s.dirty k v).2 = none := by rw [alInsert_snd, hv]
      have hst : (sbInsert s k v).1
          = { s with readM := (alInsert s.readM k v).1,
                     dirty := (alInsert s.dirty k v).1 } := by
        simp [sbInsert, hp, hr2]
      rw [hst]
      refine ⟨nodup_alInsert _ _ _ hs.1, nodup_alInsert _ _ _ hs.2.1, fun k' => ?_⟩
      show (alLookup (alInsert s.readM k v).1 k').isSome
          = (alLookup (alInsert s.dirty k v).1 k').isSome
      rw [alLookup_alInsert, alLookup_alInsert]
      by_cases hk : k = k'
      · simp [hk]
      · simp [hk, hs.2.2 k']
    | some ov =>
      have hr2 : (alInsert s.dirty k v).2 = some ov := by rw [alInsert_snd, hv]
      have hst : (sbInsert s k v).1
          = { s with dirty := (alInsert s.dirty k v).1 } := by
        simp [sbInsert, hp, hr2]
      rw [hst]
      refine ⟨hs.1, nodup_alInsert _ _ _ hs.2.1, fun k' => ?_⟩
      show (alLookup s.readM k').isSome
          = (alLookup (alInsert s.dirty k v).1 k').isSome
      rw [alLookup_alInsert]
      by_cases hk : k = k'
      · subst hk
        rw [hs.2.2 k, hv]
        simp
      · simp [hk, hs.2.2 k']

/-- `remove` preserves the same-keys invariant. -/
theorem sameKeys_sbRemove (s : SyncBtree) (k : Nat) (hs : SameKeys s) :
    SameKeys (sbRemove s k).1 := by
  by_cases hp : s.poisoned
  · simpa [sbRemove, hp] using hs
  · cases hv : alLookup s.dirty k with
    | none =>
      have hr2 : (alRemove s.dirty k).2 = none := by rw [alRemove_snd, hv]
      have hst : (sbRemove s k).1 = { s with dirty := (alRemove s.dirty k).1 } := by
        simp [sbRemove, hp, hr2]
      rw [hst, alRemove_of_none _ _ hv]
      exact hs
    | some v0 =>
      have hr2 : (alRemove s.dirty k).2 = some v0 := by rw [alRemove_snd, hv]
      have hst : (sbRemove s k).1
          = { s with readM := (alRemove s.readM k).1,
                     dirty := (alRemove s.dirty k).1 } := by
        simp [sbRemove, hp, hr2]
      rw [hst]
      refine ⟨(keysOf_alRemove_sublist _ _).nodup hs.1,
        (keysOf_alRemove_sublist _ _).nodup hs.2.1, fun k' => ?_⟩
      show (alLookup (alRemove s.readM k).1 k').isSome
          = (alLookup (alRemove s.dirty k).1 k').isSome
      rw [alLookup_alRemove _ _ _ hs.1, alLookup_alRemove _ _ _ hs.2.1]
      by_cases hk : k = k'
      · simp [hk]
      · simp [hk, hs.2.2 k']

/-- `clear` preserves the same-keys invariant. -/
theorem sameKeys_sbClear (s : SyncBtree) (hs : SameKeys s) :
    SameKeys (sbClear s) := by
  by_cases hp : s.poisoned
  · simpa [sbClear, hp] using hs
  · simp [sbClear, hp, SameKeys, keysOf, alLookup]

/-- `from` establishes the same-keys invariant (its `HashMap` input has
duplicate-free keys). -/
theorem sameKeys_sbFrom (m : AList) (hm : (keysOf m).Nodup) :
    SameKeys (sbFrom m) := by
  refine ⟨foldl_alInsert_nodup m [] (by simp [keysOf]), hm, fun k => ?_⟩
  show (alLookup (m.foldl (fun r kv => (alInsert r kv.1 kv.2).1) []) k).isSome
      = (alLookup m k).isSome
  rw [foldl_alInsert_lookup m [] k hm]
  cases alLookup m k <;> rfl

/-! ### Theorems for C9 and C10 -/

/-- C9 counterexample: the claim says every operation keeps the read map's
entry a copy of the dirty map's value, so that `get` (which reads only the
read map) always agrees with the dirty map.  Inserting key 1 twice —
first value 2, then value 3 — leaves `read[1] = 2` while `dirty[1] = 3`:
the overwrite path of `SyncBtreeMapImpl::insert` updates only the dirty
map, and `get` returns the stale 2. -/
theorem sync_btree_stale_read_after_overwrite :
    sbGet (sbInsert (sbInsert sbNew 1 2).1 1 3).1 1 = some 2 ∧
      alLookup ((sbInsert (sbInsert sbNew 1 2).1 1 3).1).dirty 1 = some 3 := by
  decide

/-- C9 amended: `insert`, `remove`, `clear` and `from` all preserve the
invariant that the read map and the dirty map contain exactly the same
keys (each duplicate-free); consequently `get` — which consults only the
unlocked read map — agrees with the dirty map on key presence, and `len` /
`is_empty` agree with the dirty map's size.  The values can differ: after
an overwriting insert the read map keeps the previous value (see the
counterexample). -/
theorem sync_btree_key_invariant (s : SyncBtree) (k v : Nat) (m : AList)
    (hs : SameKeys s) (hm : (keysOf m).Nodup) :
    SameKeys (sbInsert s k v).1
  ∧ SameKeys (sbRemove s k).1
  ∧ SameKeys (sbClear s)
  ∧ SameKeys (sbFrom m)
  ∧ (sbGet s k).isSome = (alLookup s.dirty k).isSome
  ∧ sbLen s = s.dirty.length
  ∧ sbIsEmpty s = s.dirty.isEmpty :=
  ⟨sameKeys_sbInsert s k v hs, sameKeys_sbRemove s k hs, sameKeys_sbClear s hs,
   sameKeys_sbFrom m hm, hs.2.2 k, sameKeys_length s hs, sameKeys_isEmpty s hs⟩

/-- C9 witness: the invariant hypothesis is discharged on the concrete
stale state `read = [(1,2)]`, `dirty = [(1,3)]` (same keys, different
values), and the theorem yields the preserved invariant and the size
agreement. -/
theorem sync_btree_key_invariant_witness :
    SameKeys (sbInsert ⟨[(1, 2)], [(1, 3)], false⟩ 4 5).1 ∧
      sbLen ⟨[(1, 2)], [(1, 3)], false⟩ = 1 :=
  have hs : SameKeys ⟨[(1, 2)], [(1, 3)], false⟩ :=
    ⟨by decide, by decide, by intro k; unfold alLookup; split <;> simp⟩
  have h := sync_btree_key_invariant ⟨[(1, 2)], [(1, 3)], false⟩ 4 5 []
    hs (by decide)
  ⟨h.1, h.2.2.2.2.2.1.trans (by decide)⟩

/-- C10: when `SyncMap`'s `RwLock` is poisoned, every operation leaves the
map unchanged and degrades: `insert(k, v)` returns `Some(v)` without
inserting, `remove` returns `None`, `get` and `get_mut` return `None`,
and `clear` does nothing. -/
theorem sync_map_poisoned_degrades (s : SyncMapRS) (k v : Nat)
    (h : s.poisoned = true) :
    smInsert s k v = (s, some v)
  ∧ smRemove s k = (s, none)
  ∧ smGet s k = none
  ∧ smGetMut s k = none
  ∧ smClear s = s := by
  simp [smInsert, smRemove, smGet, smGetMut, smClear, h]

/-- C10 witness: a poisoned map holding `(1, 2)` rejects an insert of
`(1, 4)` by returning `Some 4`, and `get 1` reports nothing. -/
theorem sync_map_poisoned_degrades_witness :
    smInsert ⟨[(1, 2)], true⟩ 1 4 = (⟨[(1, 2)], true⟩, some 4) ∧
      smGet ⟨[(1, 2)], true⟩ 1 = none :=
  have h := sync_map_poisoned_degrades ⟨[(1, 2)], true⟩ 1 4 rfl
  ⟨h.1, h.2.2.1⟩

end Cogo
